import Mathlib

/-!
Verification of `split_pdf_by_bookmarks.py`: a shallow embedding of the
outline walker (`extract_bookmarks_with_pages` / `process_outline`), the
range organizer (`organize_by_level`) and the emission loop of
`split_pdf_by_bookmarks`, together with proofs of the specified properties.
-/

namespace PdfSplit

/-- Python's `title.split('.')` on the title's characters: split at every
`'.'`, keeping empty pieces, so `splitDot [] = [[]]` (as `''.split('.') == ['']`). -/
def splitDot : List Char → List (List Char)
  | [] => [[]]
  | c :: cs =>
    match splitDot cs with
    | [] => [[]]
    | piece :: rest => if c = '.' then [] :: piece :: rest else (c :: piece) :: rest

/-- Level inference in `process_outline`:
`dots = title.split('.'); level = len(dots) if len(dots) > 1 else 1`. -/
def inferTitleLevel (t : String) : Nat :=
  if (splitDot t.data).length > 1 then (splitDot t.data).length else 1

mutual
/-- The value `process_outline` receives: Python `None`, a list of items, or a
dict node carrying a title, an optional resolved target page (`none` when the
entry has no `/Page` / `/D` key or page resolution fails, in which case the
entry is dropped), and the `/First` child and `/Next` sibling trees
(`nil` when the key is absent). -/
inductive Outline : Type where
  | nil : Outline
  | list : OutlineList → Outline
  | node : String → Option Nat → Outline → Outline → Outline

/-- A Python list of outline items. -/
inductive OutlineList : Type where
  | onil : OutlineList
  | ocons : Outline → OutlineList → OutlineList
end

mutual
/-- `process_outline`: pre-order walk emitting `(title, page, level)` triples.
The `level` parameter of the Python function is shadowed by the title-based
inference before every append, so the emitted level is always
`inferTitleLevel title`, independent of tree depth. -/
def process_outline : Outline → List (String × Nat × Nat)
  | .nil => []
  | .list items => process_outline_items items
  | .node t tgt first next =>
    (match tgt with
     | some p => [(t, p, inferTitleLevel t)]
     | none => []) ++ process_outline first ++ process_outline next

/-- `process_outline` over a Python list of items (same level for each item). -/
def process_outline_items : OutlineList → List (String × Nat × Nat)
  | .onil => []
  | .ocons o os => process_outline o ++ process_outline_items os
end

/-- `extract_bookmarks_with_pages`: `reader.outline is None` gives `[]`,
otherwise the walk over the outline. -/
def extract_bookmarks_with_pages (outline : Option Outline) : List (String × Nat × Nat) :=
  match outline with
  | none => []
  | some o => process_outline o

/-- A bucket of `(start, end)` page ranges, the value type of the
`defaultdict(list)` named `sections`. -/
abbrev Bucket := List (Nat × Nat)

/-- `sections[title].append((page_num, page_num))` on the insertion-ordered
association list modelling the `defaultdict`. -/
def bucketAppend : List (String × Bucket) → String → Nat × Nat → List (String × Bucket)
  | [], t, r => [(t, [r])]
  | (k, rs) :: rest, t, r =>
    if k = t then (k, rs ++ [r]) :: rest else (k, rs) :: bucketAppend rest t r

/-- `lst[-1] = (lst[-1][0], p)` guarded by the `if sections[current_parent]:`
nonempty check (an empty bucket is left unchanged). -/
def setLastEnd : Bucket → Nat → Bucket
  | [], _ => []
  | [r], p => [(r.1, p)]
  | r :: r2 :: rs, p => r :: setLastEnd (r2 :: rs) p

/-- `sections[current_parent][-1] = (start, page_num)`. A missing key is
created empty by the `defaultdict` lookup and the nonempty guard then skips the
update (unreachable during the scan, kept for faithfulness). -/
def bucketExtend : List (String × Bucket) → String → Nat → List (String × Bucket)
  | [], t, _ => [(t, [])]
  | (k, rs) :: rest, t, p =>
    if k = t then (k, setLastEnd rs p) :: rest else (k, rs) :: bucketExtend rest t p

/-- State of the grouping loop in `organize_by_level`. -/
structure OrgState where
  sections : List (String × Bucket)
  current_parent : Option String

/-- The grouping loop of `organize_by_level` over the page-sorted bookmarks.
`elif current_parent:` is Python truthiness, so both `None` and the empty
string skip the extension branch. -/
def orgScan (d : Nat) : List (String × Nat × Nat) → OrgState → OrgState
  | [], st => st
  | (t, p, l) :: rest, st =>
    if l ≤ d then
      orgScan d rest ⟨bucketAppend st.sections t (p, p), some t⟩
    else
      match st.current_parent with
      | some cp =>
        if cp = "" then orgScan d rest st
        else orgScan d rest ⟨bucketExtend st.sections cp p, some cp⟩
      | none => orgScan d rest st

/-- `sections[x][0][0]`: the first recorded start of a bucket. A bucket is
never empty when this is read; `0` stands for the unreachable case in which
Python would raise `IndexError`. -/
def firstStart (rs : Bucket) : Nat :=
  match rs with
  | [] => 0
  | r :: _ => r.1

/-- `sorted(sections.keys(), key=lambda x: sections[x][0][0])` followed by
`result.append((title, sections[title][0][0]))`. Python's `sorted` is stable
and a stable sort's output is uniquely determined by the key comparisons and
the input order, so the stable `List.insertionSort` embeds it faithfully;
iteration order of the dict is insertion order. -/
def orgFinal (sections : List (String × Bucket)) : List (String × Nat) :=
  (List.insertionSort (fun a b => firstStart a.2 ≤ firstStart b.2) sections).map
    (fun kr => (kr.1, firstStart kr.2))

/-- `sorted(bookmarks, key=lambda x: x[1])` (stable, by page), embedded as the
stable `List.insertionSort`. -/
def sortByPage (l : List (String × Nat × Nat)) : List (String × Nat × Nat) :=
  List.insertionSort (fun a b => a.2.1 ≤ b.2.1) l

instance : IsTotal (String × Nat × Nat) (fun a b => a.2.1 ≤ b.2.1) :=
  ⟨fun x y => Nat.le_total x.2.1 y.2.1⟩

instance : IsTrans (String × Nat × Nat) (fun a b => a.2.1 ≤ b.2.1) :=
  ⟨fun _ _ _ => Nat.le_trans⟩

instance : IsTotal (String × Bucket) (fun a b => firstStart a.2 ≤ firstStart b.2) :=
  ⟨fun x y => Nat.le_total (firstStart x.2) (firstStart y.2)⟩

instance : IsTrans (String × Bucket) (fun a b => firstStart a.2 ≤ firstStart b.2) :=
  ⟨fun _ _ _ => Nat.le_trans⟩

/-- `organize_by_level(bookmarks, max_depth)`. `if not max_depth:` is Python
truthiness, so `some 0` takes the pass-through branch exactly like `none`. -/
def organize_by_level (bookmarks : List (String × Nat × Nat)) (max_depth : Option Nat) :
    List (String × Nat) :=
  if bookmarks.isEmpty then []
  else
    match max_depth with
    | none => bookmarks.map (fun x => (x.1, x.2.1))
    | some 0 => bookmarks.map (fun x => (x.1, x.2.1))
    | some d => orgFinal (orgScan d (sortByPage bookmarks) ⟨[], none⟩).sections

/-- End-page resolution of the driver:
`end_page = organized_bookmarks[i+1][1] if i < len(...) - 1 else len(reader.pages)`. -/
def resolveSections (organized : List (String × Nat)) (pageCount : Nat) :
    List (String × Nat × Nat) :=
  match organized with
  | [] => []
  | (t, s) :: rest =>
    (t, s, ((rest.head?).map Prod.snd).getD pageCount) :: resolveSections rest pageCount

/-- Pages copied for one section:
`for page_num in range(start_page, end_page): if page_num < len(reader.pages): writer.add_page(...)`. -/
def pagesWritten (s e pageCount : Nat) : List Nat :=
  (List.range' s (e - s)).filter (fun p => p < pageCount)

/-- The emission loop: one output artifact per organized section, in order —
the loop never skips a section, so zero-page sections also produce a file. -/
def emittedFiles (organized : List (String × Nat)) (pageCount : Nat) :
    List (String × List Nat) :=
  (resolveSections organized pageCount).map
    (fun sec => (sec.1, pagesWritten sec.2.1 sec.2.2 pageCount))

/-- Observable outcome of one run of `split_pdf_by_bookmarks` after the PDF
was opened successfully. -/
structure RunResult where
  noBookmarksReported : Bool
  sectionsProcessed : Nat
  filesWritten : List (String × List Nat)
deriving DecidableEq, Repr

/-- `split_pdf_by_bookmarks` after a successful open: extract, bail out
reporting "No bookmarks found" on an empty extraction, otherwise organize and
emit every organized section. -/
def split_pdf_by_bookmarks (outline : Option Outline) (pageCount : Nat)
    (max_depth : Option Nat) : RunResult :=
  let bookmarks := extract_bookmarks_with_pages outline
  if bookmarks.isEmpty then ⟨true, 0, []⟩
  else
    let organized := organize_by_level bookmarks max_depth
    ⟨false, organized.length, emittedFiles organized pageCount⟩

/-- Resolved sections chain correctly: each end page is the next section's
start page, and the last end page is the document's page count. -/
def chainOk : List (String × Nat × Nat) → Nat → Bool
  | [], _ => true
  | [s], pc => s.2.2 == pc
  | s :: s2 :: rest, pc => s.2.2 == s2.2.1 && chainOk (s2 :: rest) pc

/-- The page of the first entry with title `t` at level ≤ `d` in `l` — the
page a bucket first records for `t` during the scan. -/
def firstParentPage (d : Nat) (l : List (String × Nat × Nat)) (t : String) : Option Nat :=
  (l.find? (fun x => x.1 == t && decide (x.2.2 ≤ d))).map (fun x => x.2.1)

/-! ### Lemmas about the split-on-dot level inference -/

theorem splitDot_ne_nil (l : List Char) : splitDot l ≠ [] := by
  cases l with
  | nil => simp [splitDot]
  | cons c cs =>
    simp only [splitDot]
    cases h : splitDot cs with
    | nil => simp
    | cons piece rest => by_cases hc : c = '.' <;> simp [hc]

theorem length_splitDot (l : List Char) : (splitDot l).length = l.count '.' + 1 := by
  induction l with
  | nil => simp [splitDot]
  | cons c cs ih =>
    simp only [splitDot]
    cases h : splitDot cs with
    | nil => exact absurd h (splitDot_ne_nil cs)
    | cons piece rest =>
      rw [h] at ih
      by_cases hc : c = '.'
      · subst hc
        simp only [List.count_cons, if_pos rfl, List.length_cons]
        simp [ih]
      · simp only [List.length_cons] at ih
        simp [hc, List.count_cons]
        omega

theorem inferTitleLevel_eq (t : String) :
    inferTitleLevel t = if '.' ∈ t.data then t.data.count '.' + 1 else 1 := by
  unfold inferTitleLevel
  rw [length_splitDot]
  rcases Nat.eq_zero_or_pos (t.data.count '.') with h0 | h0
  · have hnm : '.' ∉ t.data := by rw [← List.count_pos_iff]; omega
    simp [h0, hnm]
  · have hm : '.' ∈ t.data := List.count_pos_iff.mp h0
    have hgt : t.data.count '.' + 1 > 1 := by omega
    simp [hm, hgt]

/-! ### The walker's emitted level is always the title-based inference -/

mutual
theorem level_eq_infer_of_mem : ∀ (o : Outline) (t : String) (p l : Nat),
    (t, p, l) ∈ process_outline o → l = inferTitleLevel t
  | .nil, t, p, l, h => by simp [process_outline] at h
  | .list items, t, p, l, h =>
      level_eq_infer_of_mem_items items t p l (by simpa [process_outline] using h)
  | .node t0 tgt first next, t, p, l, h => by
      simp only [process_outline, List.mem_append] at h
      rcases h with (h | h) | h
      · cases tgt with
        | none => simp at h
        | some pp =>
          simp only [List.mem_singleton, Prod.mk.injEq] at h
          obtain ⟨rfl, -, rfl⟩ := h
          rfl
      · exact level_eq_infer_of_mem first t p l h
      · exact level_eq_infer_of_mem next t p l h

theorem level_eq_infer_of_mem_items : ∀ (os : OutlineList) (t : String) (p l : Nat),
    (t, p, l) ∈ process_outline_items os → l = inferTitleLevel t
  | .ocons o os, t, p, l, h => by
      rcases List.mem_append.mp (by simpa [process_outline_items] using h) with h | h
      · exact level_eq_infer_of_mem o t p l h
      · exact level_eq_infer_of_mem_items os t p l h
end

/-! ### Pass-through and emission helpers -/

theorem organize_none (bms : List (String × Nat × Nat)) :
    organize_by_level bms none = bms.map (fun x => (x.1, x.2.1)) := by
  cases bms <;> simp [organize_by_level]

theorem resolveSections_map_fst (organized : List (String × Nat)) (pc : Nat) :
    (resolveSections organized pc).map Prod.fst = organized.map Prod.fst := by
  induction organized with
  | nil => rfl
  | cons x rest ih =>
    obtain ⟨t, s⟩ := x
    simp [resolveSections, ih]

theorem length_resolveSections (organized : List (String × Nat)) (pc : Nat) :
    (resolveSections organized pc).length = organized.length := by
  induction organized with
  | nil => rfl
  | cons x rest ih =>
    obtain ⟨t, s⟩ := x
    simp [resolveSections, ih]

theorem pagesWritten_eq (s e pc : Nat) :
    pagesWritten s e pc = List.range' s (min e pc - s) := by
  unfold pagesWritten
  rcases Nat.le_total e pc with h | h
  · rw [Nat.min_eq_left h]
    apply List.filter_eq_self.mpr
    intro a ha
    rw [List.mem_range'] at ha
    obtain ⟨i, hi, rfl⟩ := ha
    simp
    omega
  · rw [Nat.min_eq_right h]
    rcases Nat.le_total s pc with hs | hs
    · have hsplit : List.range' s (pc - s) ++ List.range' (s + (pc - s)) (e - s - (pc - s))
          = List.range' s (e - s) := by
        rw [List.range'_append_1]
        congr 1
        omega
      rw [← hsplit, List.filter_append]
      have h1 : (List.range' s (pc - s)).filter (fun p => decide (p < pc))
          = List.range' s (pc - s) := by
        apply List.filter_eq_self.mpr
        intro a ha
        rw [List.mem_range'] at ha
        obtain ⟨i, hi, rfl⟩ := ha
        simp
        omega
      have h2 : (List.range' (s + (pc - s)) (e - s - (pc - s))).filter (fun p => decide (p < pc))
          = [] := by
        apply List.filter_eq_nil_iff.mpr
        intro a ha
        rw [List.mem_range'] at ha
        obtain ⟨i, hi, rfl⟩ := ha
        simp
        omega
      rw [h1, h2, List.append_nil]
    · have h0 : pc - s = 0 := by omega
      rw [h0]
      apply List.filter_eq_nil_iff.mpr
      intro a ha
      rw [List.mem_range'] at ha
      obtain ⟨i, hi, rfl⟩ := ha
      simp
      omega

/-! ### End-page resolution chains by construction -/

theorem chainOk_resolveSections (organized : List (String × Nat)) (pc : Nat) :
    chainOk (resolveSections organized pc) pc = true := by
  induction organized with
  | nil => rfl
  | cons x rest ih =>
    obtain ⟨t, s⟩ := x
    cases rest with
    | nil => simp [resolveSections, chainOk]
    | cons y rest2 =>
      obtain ⟨t2, s2⟩ := y
      show chainOk ((t, s, s2) :: (t2, s2, ((rest2.head?).map Prod.snd).getD pc)
          :: resolveSections rest2 pc) pc = true
      rw [chainOk]
      simp only [beq_self_eq_true, Bool.true_and]
      exact ih

/-! ### The organizer output is sorted by start page -/

theorem orgFinal_snd_pairwise (sections : List (String × Bucket)) :
    ((orgFinal sections).map Prod.snd).Pairwise (· ≤ ·) := by
  have hsorted := List.sorted_insertionSort
      (fun a b : String × Bucket => firstStart a.2 ≤ firstStart b.2) sections
  unfold orgFinal
  rw [List.map_map, List.pairwise_map]
  exact hsorted.imp (fun h => h)

theorem organize_some_zero (bms : List (String × Nat × Nat)) :
    organize_by_level bms (some 0) = bms.map (fun x => (x.1, x.2.1)) := by
  cases bms <;> simp [organize_by_level]

theorem organize_some_succ_eq (bms : List (String × Nat × Nat)) (d : Nat) :
    organize_by_level bms (some (d + 1)) =
      if bms.isEmpty then []
      else orgFinal (orgScan (d + 1) (sortByPage bms) ⟨[], none⟩).sections := by
  cases bms with
  | nil => rfl
  | cons x rest => rfl

theorem organize_some_succ_snd_pairwise (bms : List (String × Nat × Nat)) (d : Nat) :
    ((organize_by_level bms (some (d + 1))).map Prod.snd).Pairwise (· ≤ ·) := by
  rw [organize_some_succ_eq]
  by_cases hb : bms.isEmpty
  · rw [if_pos hb]
    simp
  · rw [if_neg hb]
    exact orgFinal_snd_pairwise _

/-! ### Scan lemmas for the depth-bounded branch -/

theorem orgScan_skip_deep (d : Nat) (l : List (String × Nat × Nat)) :
    orgScan d l ⟨[], none⟩
      = orgScan d (l.dropWhile (fun x => decide (d < x.2.2))) ⟨[], none⟩ := by
  induction l with
  | nil => rfl
  | cons x rest ih =>
    obtain ⟨t, p, lv⟩ := x
    by_cases hlv : d < lv
    · have hstep : orgScan d ((t, p, lv) :: rest) ⟨[], none⟩ = orgScan d rest ⟨[], none⟩ := by
        simp only [orgScan]
        rw [if_neg (by omega)]
      rw [hstep, ih, List.dropWhile_cons]
      simp [hlv]
    · rw [List.dropWhile_cons]
      simp [hlv]

theorem bucketAppend_of_not_mem (s : List (String × Bucket)) (t : String) (r : Nat × Nat)
    (h : t ∉ s.map Prod.fst) : bucketAppend s t r = s ++ [(t, [r])] := by
  induction s with
  | nil => rfl
  | cons b rest ih =>
    obtain ⟨k, rs⟩ := b
    simp only [List.map_cons, List.mem_cons] at h
    push_neg at h
    simp only [bucketAppend]
    rw [if_neg (fun he => h.1 he.symm), ih h.2, List.cons_append]

theorem orgScan_all_parents_length (d : Nat) :
    ∀ (l : List (String × Nat × Nat)) (st : OrgState),
      (∀ x ∈ l, x.2.2 ≤ d) →
      (l.map Prod.fst).Nodup →
      (∀ t ∈ l.map Prod.fst, t ∉ st.sections.map Prod.fst) →
      (orgScan d l st).sections.length = st.sections.length + l.length
  | [], st, _, _, _ => by simp [orgScan]
  | (t, p, lv) :: rest, st, hall, hnodup, hdisj => by
    have hlv : lv ≤ d := hall _ (List.mem_cons_self _ _)
    have htnotin : t ∉ st.sections.map Prod.fst := hdisj t (by simp)
    have hkeys : bucketAppend st.sections t (p, p) = st.sections ++ [(t, [(p, p)])] :=
      bucketAppend_of_not_mem _ _ _ htnotin
    have hnd : (rest.map Prod.fst).Nodup := (List.nodup_cons.mp (by simpa using hnodup)).2
    have htn : t ∉ rest.map Prod.fst := (List.nodup_cons.mp (by simpa using hnodup)).1
    have hrec := orgScan_all_parents_length d rest
        ⟨bucketAppend st.sections t (p, p), some t⟩
        (fun x hx => hall x (List.mem_cons_of_mem _ hx)) hnd
        (fun u hu => by
          show u ∉ (bucketAppend st.sections t (p, p)).map Prod.fst
          rw [hkeys]
          simp only [List.map_append, List.map_cons, List.map_nil, List.mem_append,
            List.mem_singleton]
          rintro (h | h)
          · exact hdisj u (List.mem_cons_of_mem _ hu) h
          · exact htn (h ▸ hu))
    show (orgScan d ((t, p, lv) :: rest) st).sections.length = st.sections.length + (rest.length + 1)
    simp only [orgScan]
    rw [if_pos hlv, hrec, hkeys]
    simp
    omega

theorem orgFinal_length (sections : List (String × Bucket)) :
    (orgFinal sections).length = sections.length := by
  rw [orgFinal, List.length_map, List.length_insertionSort]

/-! ### Bucket-level lemmas for the duplicate-title invariant -/

theorem setLastEnd_firstStart (rs : Bucket) (p : Nat) :
    firstStart (setLastEnd rs p) = firstStart rs := by
  match rs with
  | [] => rfl
  | [r] => rfl
  | r :: r2 :: rest => rfl

theorem setLastEnd_ne_nil (rs : Bucket) (p : Nat) (h : rs ≠ []) : setLastEnd rs p ≠ [] := by
  match rs with
  | [] => exact absurd rfl h
  | [r] => simp [setLastEnd]
  | r :: r2 :: rest => simp [setLastEnd]

theorem firstStart_append_single (rs : Bucket) (r : Nat × Nat) (h : rs ≠ []) :
    firstStart (rs ++ [r]) = firstStart rs := by
  match rs with
  | [] => exact absurd rfl h
  | r0 :: rest => rfl

theorem bucketAppend_keys (s : List (String × Bucket)) (t : String) (r : Nat × Nat) :
    (bucketAppend s t r).map Prod.fst =
      if t ∈ s.map Prod.fst then s.map Prod.fst else s.map Prod.fst ++ [t] := by
  induction s with
  | nil => simp [bucketAppend]
  | cons b rest ih =>
    obtain ⟨k0, rs0⟩ := b
    by_cases hk : k0 = t
    · subst hk
      simp [bucketAppend]
    · simp only [bucketAppend, if_neg hk, List.map_cons, ih]
      by_cases hm : t ∈ rest.map Prod.fst
      · simp [hm, Ne.symm hk]
      · simp [hm, Ne.symm hk]

theorem mem_bucketAppend (s : List (String × Bucket)) (t : String) (r : Nat × Nat)
    (k : String) (rs' : Bucket) (h : (k, rs') ∈ bucketAppend s t r) :
    (k, rs') ∈ s ∨
      (k = t ∧ ((t ∉ s.map Prod.fst ∧ rs' = [r]) ∨ ∃ rs, (t, rs) ∈ s ∧ rs' = rs ++ [r])) := by
  induction s with
  | nil =>
    simp only [bucketAppend, List.mem_singleton, Prod.mk.injEq] at h
    exact Or.inr ⟨h.1, Or.inl ⟨by simp, h.2⟩⟩
  | cons b rest ih =>
    obtain ⟨k0, rs0⟩ := b
    by_cases hk : k0 = t
    · subst hk
      simp only [bucketAppend, if_pos rfl] at h
      rcases List.mem_cons.mp h with heq | hmem
      · simp only [Prod.mk.injEq] at heq
        obtain ⟨rfl, rfl⟩ := heq
        exact Or.inr ⟨rfl, Or.inr ⟨rs0, List.mem_cons_self _ _, rfl⟩⟩
      · exact Or.inl (List.mem_cons_of_mem _ hmem)
    · simp only [bucketAppend, if_neg hk] at h
      rcases List.mem_cons.mp h with heq | hmem
      · exact Or.inl (List.mem_cons.mpr (Or.inl heq))
      · rcases ih hmem with h1 | ⟨rfl, h2⟩
        · exact Or.inl (List.mem_cons_of_mem _ h1)
        · refine Or.inr ⟨rfl, ?_⟩
          rcases h2 with ⟨hnm, hrs⟩ | ⟨rs, hm, hrs⟩
          · refine Or.inl ⟨?_, hrs⟩
            simp only [List.map_cons, List.mem_cons, not_or]
            exact ⟨fun hh => hk hh.symm, hnm⟩
          · exact Or.inr ⟨rs, List.mem_cons_of_mem _ hm, hrs⟩

theorem bucketExtend_keys (s : List (String × Bucket)) (t : String) (p : Nat) :
    (bucketExtend s t p).map Prod.fst =
      if t ∈ s.map Prod.fst then s.map Prod.fst else s.map Prod.fst ++ [t] := by
  induction s with
  | nil => simp [bucketExtend]
  | cons b rest ih =>
    obtain ⟨k0, rs0⟩ := b
    by_cases hk : k0 = t
    · subst hk
      simp [bucketExtend]
    · simp only [bucketExtend, if_neg hk, List.map_cons, ih]
      by_cases hm : t ∈ rest.map Prod.fst
      · simp [hm, Ne.symm hk]
      · simp [hm, Ne.symm hk]

theorem mem_bucketExtend (s : List (String × Bucket)) (t : String) (p : Nat)
    (k : String) (rs' : Bucket) (h : (k, rs') ∈ bucketExtend s t p) :
    (k, rs') ∈ s ∨
      (k = t ∧ ((t ∉ s.map Prod.fst ∧ rs' = []) ∨
        ∃ rs, (t, rs) ∈ s ∧ rs' = setLastEnd rs p)) := by
  induction s with
  | nil =>
    simp only [bucketExtend, List.mem_singleton, Prod.mk.injEq] at h
    exact Or.inr ⟨h.1, Or.inl ⟨by simp, h.2⟩⟩
  | cons b rest ih =>
    obtain ⟨k0, rs0⟩ := b
    by_cases hk : k0 = t
    · subst hk
      simp only [bucketExtend, if_pos rfl] at h
      rcases List.mem_cons.mp h with heq | hmem
      · simp only [Prod.mk.injEq] at heq
        obtain ⟨rfl, rfl⟩ := heq
        exact Or.inr ⟨rfl, Or.inr ⟨rs0, List.mem_cons_self _ _, rfl⟩⟩
      · exact Or.inl (List.mem_cons_of_mem _ hmem)
    · simp only [bucketExtend, if_neg hk] at h
      rcases List.mem_cons.mp h with heq | hmem
      · exact Or.inl (List.mem_cons.mpr (Or.inl heq))
      · rcases ih hmem with h1 | ⟨rfl, h2⟩
        · exact Or.inl (List.mem_cons_of_mem _ h1)
        · refine Or.inr ⟨rfl, ?_⟩
          rcases h2 with ⟨hnm, hrs⟩ | ⟨rs, hm, hrs⟩
          · refine Or.inl ⟨?_, hrs⟩
            simp only [List.map_cons, List.mem_cons, not_or]
            exact ⟨fun hh => hk hh.symm, hnm⟩
          · exact Or.inr ⟨rs, List.mem_cons_of_mem _ hm, hrs⟩

/-! ### One-step unfoldings of the scan -/

theorem orgScan_cons_parent (d : Nat) (t : String) (p lv : Nat)
    (rest : List (String × Nat × Nat)) (st : OrgState) (hlv : lv ≤ d) :
    orgScan d ((t, p, lv) :: rest) st
      = orgScan d rest ⟨bucketAppend st.sections t (p, p), some t⟩ := by
  obtain ⟨S, CP⟩ := st
  simp [orgScan, hlv]

theorem orgScan_cons_skip_none (d : Nat) (t : String) (p lv : Nat)
    (rest : List (String × Nat × Nat)) (st : OrgState) (hlv : ¬ lv ≤ d)
    (hcp : st.current_parent = none) :
    orgScan d ((t, p, lv) :: rest) st = orgScan d rest st := by
  obtain ⟨S, CP⟩ := st
  simp only [OrgState.mk.injEq] at hcp ⊢
  subst hcp
  simp [orgScan, hlv]

theorem orgScan_cons_skip_empty (d : Nat) (t : String) (p lv : Nat)
    (rest : List (String × Nat × Nat)) (st : OrgState) (hlv : ¬ lv ≤ d)
    (hcp : st.current_parent = some "") :
    orgScan d ((t, p, lv) :: rest) st = orgScan d rest st := by
  obtain ⟨S, CP⟩ := st
  simp only [OrgState.mk.injEq] at hcp ⊢
  subst hcp
  simp [orgScan, hlv]

theorem orgScan_cons_extend (d : Nat) (t : String) (p lv : Nat)
    (rest : List (String × Nat × Nat)) (st : OrgState) (cp : String) (hlv : ¬ lv ≤ d)
    (hcp : st.current_parent = some cp) (hcpe : cp ≠ "") :
    orgScan d ((t, p, lv) :: rest) st
      = orgScan d rest ⟨bucketExtend st.sections cp p, some cp⟩ := by
  obtain ⟨S, CP⟩ := st
  simp only [OrgState.mk.injEq] at hcp ⊢
  subst hcp
  simp [orgScan, hlv, hcpe]

/-! ### The keys of the scan only grow, and every parent title becomes a key -/

theorem orgScan_keys_mono (d : Nat) :
    ∀ (l : List (String × Nat × Nat)) (st : OrgState) (k : String),
      k ∈ st.sections.map Prod.fst → k ∈ (orgScan d l st).sections.map Prod.fst
  | [], _, _, h => h
  | (t, p, lv) :: rest, st, k, h => by
    by_cases hlv : lv ≤ d
    · rw [orgScan_cons_parent d t p lv rest st hlv]
      apply orgScan_keys_mono
      show k ∈ (bucketAppend st.sections t (p, p)).map Prod.fst
      rw [bucketAppend_keys]
      by_cases hm : t ∈ st.sections.map Prod.fst
      · rw [if_pos hm]
        exact h
      · rw [if_neg hm]
        simp [h]
    · cases hcpv : st.current_parent with
      | none =>
        rw [orgScan_cons_skip_none d t p lv rest st hlv hcpv]
        exact orgScan_keys_mono d rest st k h
      | some cp =>
        by_cases hcpe : cp = ""
        · subst hcpe
          rw [orgScan_cons_skip_empty d t p lv rest st hlv hcpv]
          exact orgScan_keys_mono d rest st k h
        · rw [orgScan_cons_extend d t p lv rest st cp hlv hcpv hcpe]
          apply orgScan_keys_mono
          show k ∈ (bucketExtend st.sections cp p).map Prod.fst
          rw [bucketExtend_keys]
          by_cases hm : cp ∈ st.sections.map Prod.fst
          · rw [if_pos hm]
            exact h
          · rw [if_neg hm]
            simp [h]

theorem orgScan_parent_key (d : Nat) :
    ∀ (l : List (String × Nat × Nat)) (st : OrgState) (x : String × Nat × Nat),
      x ∈ l → x.2.2 ≤ d → x.1 ∈ (orgScan d l st).sections.map Prod.fst
  | [], _, x, hx, _ => absurd hx (List.not_mem_nil x)
  | (t, p, lv) :: rest, st, x, hx, hxd => by
    rcases List.mem_cons.mp hx with rfl | hx'
    · rw [orgScan_cons_parent d t p lv rest st hxd]
      apply orgScan_keys_mono
      show t ∈ (bucketAppend st.sections t (p, p)).map Prod.fst
      rw [bucketAppend_keys]
      by_cases hm : t ∈ st.sections.map Prod.fst
      · rw [if_pos hm]
        exact hm
      · rw [if_neg hm]
        simp
    · by_cases hlv : lv ≤ d
      · rw [orgScan_cons_parent d t p lv rest st hlv]
        exact orgScan_parent_key d rest _ x hx' hxd
      · cases hcpv : st.current_parent with
        | none =>
          rw [orgScan_cons_skip_none d t p lv rest st hlv hcpv]
          exact orgScan_parent_key d rest st x hx' hxd
        | some cp =>
          by_cases hcpe : cp = ""
          · subst hcpe
            rw [orgScan_cons_skip_empty d t p lv rest st hlv hcpv]
            exact orgScan_parent_key d rest st x hx' hxd
          · rw [orgScan_cons_extend d t p lv rest st cp hlv hcpv hcpe]
            exact orgScan_parent_key d rest _ x hx' hxd

/-! ### Head lemmas for the first-parent-page search -/

theorem firstParentPage_cons_of_match (d : Nat) (x : String × Nat × Nat)
    (l : List (String × Nat × Nat)) (k : String) (h1 : x.1 = k) (h2 : x.2.2 ≤ d) :
    firstParentPage d (x :: l) k = some x.2.1 := by
  simp only [firstParentPage]
  rw [List.find?_cons_of_pos _ (by simp [h1, h2])]
  rfl

theorem firstParentPage_cons_of_ne (d : Nat) (x : String × Nat × Nat)
    (l : List (String × Nat × Nat)) (k : String) (h : ¬(x.1 = k ∧ x.2.2 ≤ d)) :
    firstParentPage d (x :: l) k = firstParentPage d l k := by
  simp only [firstParentPage]
  rw [List.find?_cons_of_neg]
  simp only [Bool.and_eq_true, beq_iff_eq, decide_eq_true_eq]
  exact h

/-! ### The main scan invariant: one nonempty bucket per parent title, whose
first recorded page is the page of the title's first parent occurrence -/

theorem orgScan_invariant (d : Nat) :
    ∀ (l : List (String × Nat × Nat)) (st : OrgState),
      (st.sections.map Prod.fst).Nodup →
      (∀ k rs, (k, rs) ∈ st.sections → rs ≠ []) →
      (∀ cp, st.current_parent = some cp → cp ∈ st.sections.map Prod.fst) →
      ((orgScan d l st).sections.map Prod.fst).Nodup ∧
      (∀ k rs', (k, rs') ∈ (orgScan d l st).sections →
        rs' ≠ [] ∧
        ((∃ rs, (k, rs) ∈ st.sections ∧ firstStart rs' = firstStart rs) ∨
         (k ∉ st.sections.map Prod.fst ∧ firstParentPage d l k = some (firstStart rs'))))
  | [], st, hnodup, hne, _ =>
    ⟨hnodup, fun k rs' hm => ⟨hne k rs' hm, Or.inl ⟨rs', hm, rfl⟩⟩⟩
  | (t, p, lv) :: rest, st, hnodup, hne, hcp => by
    by_cases hlv : lv ≤ d
    · rw [orgScan_cons_parent d t p lv rest st hlv]
      have hkeys' : (bucketAppend st.sections t (p, p)).map Prod.fst
          = if t ∈ st.sections.map Prod.fst then st.sections.map Prod.fst
            else st.sections.map Prod.fst ++ [t] := bucketAppend_keys _ _ _
      have htmem : t ∈ (bucketAppend st.sections t (p, p)).map Prod.fst := by
        rw [hkeys']
        by_cases hm : t ∈ st.sections.map Prod.fst
        · rw [if_pos hm]
          exact hm
        · rw [if_neg hm]
          simp
      have hnodup' : ((bucketAppend st.sections t (p, p)).map Prod.fst).Nodup := by
        rw [hkeys']
        by_cases hm : t ∈ st.sections.map Prod.fst
        · rw [if_pos hm]
          exact hnodup
        · rw [if_neg hm]
          simp [List.nodup_append, hnodup, hm]
      have hne' : ∀ k rs, (k, rs) ∈ bucketAppend st.sections t (p, p) → rs ≠ [] := by
        intro k rs hm
        rcases mem_bucketAppend _ _ _ _ _ hm with h1 | ⟨rfl, h2⟩
        · exact hne k rs h1
        · rcases h2 with ⟨-, rfl⟩ | ⟨rs0, -, rfl⟩
          · simp
          · simp
      have hcp' : ∀ cp, (⟨bucketAppend st.sections t (p, p), some t⟩ : OrgState).current_parent
          = some cp → cp ∈ (bucketAppend st.sections t (p, p)).map Prod.fst := by
        intro cp hcpeq
        obtain rfl : t = cp := Option.some.inj hcpeq
        exact htmem
      obtain ⟨hN, hH⟩ := orgScan_invariant d rest
        ⟨bucketAppend st.sections t (p, p), some t⟩ hnodup' hne' hcp'
      refine ⟨hN, fun k rs' hm => ?_⟩
      obtain ⟨hners, hbr⟩ := hH k rs' hm
      refine ⟨hners, ?_⟩
      rcases hbr with ⟨rs'', hmem'', hfs⟩ | ⟨hnotin', hfp⟩
      · rcases mem_bucketAppend _ _ _ _ _ hmem'' with h1 | ⟨rfl, h2⟩
        · exact Or.inl ⟨rs'', h1, hfs⟩
        · rcases h2 with ⟨hnm, rfl⟩ | ⟨rs0, hm0, rfl⟩
          · refine Or.inr ⟨hnm, ?_⟩
            rw [firstParentPage_cons_of_match d (k, p, lv) rest k rfl hlv, hfs]
            rfl
          · refine Or.inl ⟨rs0, hm0, ?_⟩
            rw [hfs, firstStart_append_single rs0 _ (hne k rs0 hm0)]
      · have hk_ne_t : k ≠ t := fun hkt => hnotin' (hkt ▸ htmem)
        have hnotin : k ∉ st.sections.map Prod.fst := by
          intro hk
          apply hnotin'
          rw [hkeys']
          by_cases hm2 : t ∈ st.sections.map Prod.fst
          · rw [if_pos hm2]
            exact hk
          · rw [if_neg hm2]
            simp [hk]
        refine Or.inr ⟨hnotin, ?_⟩
        rw [← hfp]
        exact firstParentPage_cons_of_ne d (t, p, lv) rest k (fun hc => hk_ne_t hc.1.symm)
    · have hfp_skip : ∀ k, firstParentPage d ((t, p, lv) :: rest) k = firstParentPage d rest k :=
        fun k => firstParentPage_cons_of_ne d (t, p, lv) rest k (fun hc => hlv hc.2)
      cases hcpv : st.current_parent with
      | none =>
        rw [orgScan_cons_skip_none d t p lv rest st hlv hcpv]
        obtain ⟨hN, hH⟩ := orgScan_invariant d rest st hnodup hne hcp
        refine ⟨hN, fun k rs' hm => ?_⟩
        obtain ⟨h1, h2⟩ := hH k rs' hm
        refine ⟨h1, ?_⟩
        rcases h2 with hl | ⟨hn, hfp⟩
        · exact Or.inl hl
        · exact Or.inr ⟨hn, by rw [hfp_skip]; exact hfp⟩
      | some cp =>
        by_cases hcpe : cp = ""
        · subst hcpe
          rw [orgScan_cons_skip_empty d t p lv rest st hlv hcpv]
          obtain ⟨hN, hH⟩ := orgScan_invariant d rest st hnodup hne hcp
          refine ⟨hN, fun k rs' hm => ?_⟩
          obtain ⟨h1, h2⟩ := hH k rs' hm
          refine ⟨h1, ?_⟩
          rcases h2 with hl | ⟨hn, hfp⟩
          · exact Or.inl hl
          · exact Or.inr ⟨hn, by rw [hfp_skip]; exact hfp⟩
        · rw [orgScan_cons_extend d t p lv rest st cp hlv hcpv hcpe]
          have hcpin : cp ∈ st.sections.map Prod.fst := hcp cp hcpv
          have hkeys' : (bucketExtend st.sections cp p).map Prod.fst
              = st.sections.map Prod.fst := by
            rw [bucketExtend_keys, if_pos hcpin]
          have hnodup' : ((bucketExtend st.sections cp p).map Prod.fst).Nodup := by
            rw [hkeys']
            exact hnodup
          have hne' : ∀ k rs, (k, rs) ∈ bucketExtend st.sections cp p → rs ≠ [] := by
            intro k rs hm
            rcases mem_bucketExtend _ _ _ _ _ hm with h1 | ⟨rfl, h2⟩
            · exact hne k rs h1
            · rcases h2 with ⟨hnm, rfl⟩ | ⟨rs0, hm0, rfl⟩
              · exact absurd hcpin hnm
              · exact setLastEnd_ne_nil rs0 p (hne k rs0 hm0)
          have hcp' : ∀ c, (⟨bucketExtend st.sections cp p, some cp⟩ : OrgState).current_parent
              = some c → c ∈ (bucketExtend st.sections cp p).map Prod.fst := by
            intro c hceq
            obtain rfl : cp = c := Option.some.inj hceq
            rw [hkeys']
            exact hcpin
          obtain ⟨hN, hH⟩ := orgScan_invariant d rest
            ⟨bucketExtend st.sections cp p, some cp⟩ hnodup' hne' hcp'
          refine ⟨hN, fun k rs' hm => ?_⟩
          obtain ⟨h1, h2⟩ := hH k rs' hm
          refine ⟨h1, ?_⟩
          rcases h2 with ⟨rs'', hmem'', hfs⟩ | ⟨hn, hfp⟩
          · rcases mem_bucketExtend _ _ _ _ _ hmem'' with hm1 | ⟨rfl, h3⟩
            · exact Or.inl ⟨rs'', hm1, hfs⟩
            · rcases h3 with ⟨hnm, rfl⟩ | ⟨rs0, hm0, rfl⟩
              · exact absurd hcpin hnm
              · exact Or.inl ⟨rs0, hm0, by rw [hfs, setLastEnd_firstStart]⟩
          · refine Or.inr ⟨?_, by rw [hfp_skip]; exact hfp⟩
            intro hk
            apply hn
            show k ∈ (bucketExtend st.sections cp p).map Prod.fst
            rw [hkeys']
            exact hk

/-! ### From the final buckets to the organizer's output -/

theorem orgFinal_fst_perm (s : List (String × Bucket)) :
    List.Perm ((orgFinal s).map Prod.fst) (s.map Prod.fst) := by
  rw [orgFinal, List.map_map]
  have hcomp : (Prod.fst ∘ fun kr : String × Bucket => (kr.1, firstStart kr.2)) = Prod.fst := rfl
  rw [hcomp]
  exact (List.perm_insertionSort _ s).map Prod.fst

theorem mem_orgFinal (s : List (String × Bucket)) (ts : String × Nat) (h : ts ∈ orgFinal s) :
    ∃ rs, (ts.1, rs) ∈ s ∧ ts.2 = firstStart rs := by
  rw [orgFinal, List.mem_map] at h
  obtain ⟨kr, hm, rfl⟩ := h
  exact ⟨kr.2, (List.perm_insertionSort _ s).subset hm, rfl⟩

/-! ### Claim theorems (first batch) -/

/-- Claim C1, counterexample: the walker's level inference assigns the title
"1. Overview" level 2 (its number of dot-separated pieces), not level 1 as
claimed. -/
theorem inferTitleLevel_numbered_heading_ne_one :
    inferTitleLevel "1. Overview" = 2 ∧ inferTitleLevel "1. Overview" ≠ 1 := by
  decide

/-- Claim C1, amended: the title "1. Overview" is classified by the
dot-piece-count rule — the only level heuristic in the code — which splits it
into 2 pieces and assigns level 2. -/
theorem inferTitleLevel_numbered_heading_dot_rule :
    (splitDot ("1. Overview" : String).data).length = 2 ∧
    inferTitleLevel "1. Overview" = 2 := by
  decide

/-- Claim C2, counterexample: with bookmarks "A" and "B" both at page 2 of a
3-page document (Scenario D), the section "A" has an empty page range, yet the
run still writes an output file for it (with zero pages) — emission skips
nothing. -/
theorem empty_section_file_still_created :
    (split_pdf_by_bookmarks
        (some (.list (.ocons (.node "A" (some 2) .nil .nil)
          (.ocons (.node "B" (some 2) .nil .nil) .onil)))) 3 none).filesWritten
      = [("A", []), ("B", [2])] := by
  decide

/-- Claim C2, amended: the emission loop writes exactly one output artifact per
organized section, in order — a section with an empty resolved range is not
skipped but yields a zero-page file, and subsequent sections are written
normally. -/
theorem emittedFiles_one_per_section (organized : List (String × Nat)) (pc : Nat) :
    (emittedFiles organized pc).map Prod.fst = organized.map Prod.fst ∧
    (emittedFiles organized pc).length = organized.length := by
  constructor
  · have h1 : (Prod.fst ∘ fun sec : String × Nat × Nat =>
        (sec.1, pagesWritten sec.2.1 sec.2.2 pc)) = Prod.fst := rfl
    rw [emittedFiles, List.map_map, h1, resolveSections_map_fst]
  · rw [emittedFiles, List.length_map, length_resolveSections]

/-- Claim C3: with `max_depth` unset, `organize_by_level` is a pass-through —
one `(title, page)` pair per input entry, same order, same count. -/
theorem organize_by_level_none_passthrough (bms : List (String × Nat × Nat)) :
    organize_by_level bms none = bms.map (fun x => (x.1, x.2.1)) ∧
    (organize_by_level bms none).length = bms.length := by
  refine ⟨organize_none bms, ?_⟩
  rw [organize_none bms, List.length_map]

/-- Claim C8: when the document has no outline, or the outline yields no
resolvable entries, extraction returns the empty sequence and the run reports
"no bookmarks found", produces zero sections and writes zero files, without
error. -/
theorem no_bookmarks_clean_run (o : Option Outline) (pc : Nat) (md : Option Nat)
    (h : o = none ∨ extract_bookmarks_with_pages o = []) :
    split_pdf_by_bookmarks o pc md = ⟨true, 0, []⟩ ∧
    extract_bookmarks_with_pages o = [] := by
  have he : extract_bookmarks_with_pages o = [] := by
    rcases h with rfl | he
    · rfl
    · exact he
  refine ⟨?_, he⟩
  simp [split_pdf_by_bookmarks, he]

/-- Witness for C8 at a concrete input: a document with no outline. -/
theorem no_bookmarks_clean_run_witness :
    split_pdf_by_bookmarks none 10 none = ⟨true, 0, []⟩ ∧
    extract_bookmarks_with_pages none = [] :=
  no_bookmarks_clean_run none 10 none (Or.inl rfl)

/-- Claim C9: the emitted level depends only on the count of dot-separated
pieces of the title — a title containing a `'.'` anywhere gets
level = number of pieces, a title with no `'.'` gets level 1, regardless of the
entry's depth in the outline tree. -/
theorem walker_level_from_title_only (o : Outline) (t : String) (p l : Nat)
    (h : (t, p, l) ∈ process_outline o) :
    ('.' ∈ t.data → l = (splitDot t.data).length) ∧ ('.' ∉ t.data → l = 1) := by
  have hl : l = inferTitleLevel t := level_eq_infer_of_mem o t p l h
  rw [inferTitleLevel_eq] at hl
  constructor
  · intro hm
    rw [length_splitDot]
    rw [if_pos hm] at hl
    exact hl
  · intro hm
    rw [if_neg hm] at hl
    exact hl

/-- Witness for C9 at a concrete input: the abbreviation-style title
"U.S. Policy" sits two levels deep in the outline tree yet gets level 3, its
number of dot-separated pieces. -/
theorem walker_level_from_title_only_witness :
    ('.' ∈ ("U.S. Policy" : String).data →
      (3 : Nat) = (splitDot ("U.S. Policy" : String).data).length) ∧
    ('.' ∉ ("U.S. Policy" : String).data → (3 : Nat) = 1) :=
  walker_level_from_title_only
    (.node "x" none (.node "U.S. Policy" (some 4) .nil .nil) .nil)
    "U.S. Policy" 4 3 (by decide)

/-- Claim C10: emission copies exactly the pages in
`[start_page, min(end_page, page_count))` — every copied index is strictly
below the page count, and a section starting at or beyond the page count
yields a zero-page output instead of an out-of-range access. -/
theorem emission_pages_in_range (s e pc : Nat) (organized : List (String × Nat)) :
    pagesWritten s e pc = List.range' s (min e pc - s) ∧
    (pc ≤ s → pagesWritten s e pc = []) ∧
    (∀ f ∈ emittedFiles organized pc, ∀ p ∈ f.2, p < pc) := by
  refine ⟨pagesWritten_eq s e pc, ?_, ?_⟩
  · intro hle
    rw [pagesWritten_eq]
    have hmin : min e pc ≤ pc := Nat.min_le_right e pc
    have h0 : min e pc - s = 0 := by omega
    rw [h0]
    rfl
  · intro f hf p hp
    rw [emittedFiles, List.mem_map] at hf
    obtain ⟨sec, -, rfl⟩ := hf
    rw [pagesWritten, List.mem_filter] at hp
    simpa using hp.2

/-- Witness for C10 at concrete inputs: a 7-page document, section [5,9)
writes pages [5,6], and a section starting at page 8 writes nothing. -/
theorem emission_pages_in_range_witness :
    pagesWritten 8 9 7 = [] ∧ pagesWritten 5 9 7 = [5, 6] := by
  refine ⟨(emission_pages_in_range 8 9 7 []).2.1 (by decide), ?_⟩
  rw [(emission_pages_in_range 5 9 7 []).1]
  decide

/-- Claim C4: for page-sorted entries and any `max_depth`, the organizer's
start pages are non-decreasing, and after the driver's end-page resolution each
section's end page equals the next section's start page with the last end page
equal to the document's page count — no gaps, no overlaps. -/
theorem organize_monotone_and_chain (bms : List (String × Nat × Nat)) (md : Option Nat)
    (pc : Nat) (hs : bms.Pairwise (fun a b => a.2.1 ≤ b.2.1)) :
    ((organize_by_level bms md).map Prod.snd).Pairwise (· ≤ ·) ∧
    chainOk (resolveSections (organize_by_level bms md) pc) pc = true := by
  refine ⟨?_, chainOk_resolveSections _ pc⟩
  match md with
  | none =>
    rw [organize_none, List.map_map, List.pairwise_map]
    exact hs.imp (fun h => h)
  | some 0 =>
    rw [organize_some_zero, List.map_map, List.pairwise_map]
    exact hs.imp (fun h => h)
  | some (d + 1) =>
    exact organize_some_succ_snd_pairwise bms d

/-- Witness for C4: Scenario A — entries
[("1 Introduction",0,1), ("1.1 Background",2,2), ("2 Methods",5,1)],
`max_depth` 1, a 10-page document. -/
theorem organize_monotone_and_chain_witness :
    ((organize_by_level [("1 Introduction", 0, 1), ("1.1 Background", 2, 2),
        ("2 Methods", 5, 1)] (some 1)).map Prod.snd).Pairwise (· ≤ ·) ∧
    chainOk (resolveSections (organize_by_level [("1 Introduction", 0, 1),
        ("1.1 Background", 2, 2), ("2 Methods", 5, 1)] (some 1)) 10) 10 = true :=
  organize_monotone_and_chain _ (some 1) 10 (by decide)

/-- Claim C6: with a positive `max_depth` set, entries deeper than `max_depth`
that precede (in page-sorted order) every entry at level ≤ `max_depth` are
dropped — the scan result is unchanged when they are removed — and when every
entry is deeper than `max_depth` the organizer returns the empty sequence. -/
theorem organize_drops_leading_deep (d : Nat) (hd : 1 ≤ d)
    (bms : List (String × Nat × Nat)) :
    organize_by_level bms (some d) =
      orgFinal (orgScan d ((sortByPage bms).dropWhile (fun x => decide (d < x.2.2)))
        ⟨[], none⟩).sections ∧
    ((∀ x ∈ bms, d < x.2.2) → organize_by_level bms (some d) = []) := by
  obtain ⟨d, rfl⟩ : ∃ d', d = d' + 1 := ⟨d - 1, by omega⟩
  have hmain : organize_by_level bms (some (d + 1)) =
      orgFinal (orgScan (d + 1)
        ((sortByPage bms).dropWhile (fun x => decide (d + 1 < x.2.2))) ⟨[], none⟩).sections := by
    rw [organize_some_succ_eq]
    by_cases hb : bms.isEmpty
    · rw [if_pos hb]
      have hb' : bms = [] := List.isEmpty_iff.mp hb
      subst hb'
      rfl
    · rw [if_neg hb, orgScan_skip_deep]
  refine ⟨hmain, ?_⟩
  intro hall
  rw [hmain]
  have hdrop : (sortByPage bms).dropWhile (fun x => decide (d + 1 < x.2.2)) = [] := by
    rw [List.dropWhile_eq_nil_iff]
    intro x hx
    have hxm : x ∈ bms := by
      have hx' : x ∈ sortByPage bms := hx
      rw [sortByPage] at hx'
      exact (List.perm_insertionSort _ bms).subset hx'
    simp only [decide_eq_true_eq]
    exact hall x hxm
  rw [hdrop]
  rfl

/-- Witness for C6: every entry is deeper than `max_depth` 1, so the result is
empty. -/
theorem organize_drops_leading_deep_witness :
    organize_by_level [("a.b", 0, 2), ("c.d.e", 3, 3)] (some 1) = [] :=
  (organize_drops_leading_deep 1 (by decide) [("a.b", 0, 2), ("c.d.e", 3, 3)]).2 (by decide)

/-- Claim C7, counterexample: the entries [("A",0,1), ("A",5,1)] have maximum
level 1, yet `organize_by_level` with `max_depth` 1 merges the duplicate titles
into one bucket and returns 1 section, while the unset call returns 2 — the
section counts are not identical. -/
theorem boundary_maxlevel_duplicate_count :
    (organize_by_level [("A", 0, 1), ("A", 5, 1)] (some 1)).length = 1 ∧
    (organize_by_level [("A", 0, 1), ("A", 5, 1)] none).length = 2 := by
  decide

/-- Claim C7, amended: for a non-empty entry sequence whose titles are pairwise
distinct, a `max_depth` equal to the maximum level present collapses nothing —
every entry becomes its own parent and the section count equals both the entry
count and the count of the `max_depth`-unset call. -/
theorem boundary_maxlevel_distinct_count (bms : List (String × Nat × Nat)) (d : Nat)
    (hne : bms ≠ [])
    (hnodup : (bms.map Prod.fst).Nodup)
    (hmax : ∀ x ∈ bms, x.2.2 ≤ d)
    (hattained : ∃ x ∈ bms, x.2.2 = d) :
    (organize_by_level bms (some d)).length = bms.length ∧
    (organize_by_level bms (some d)).length = (organize_by_level bms none).length := by
  have hlen : (organize_by_level bms (some d)).length = bms.length := by
    cases d with
    | zero => rw [organize_some_zero, List.length_map]
    | succ d =>
      by_cases hb : bms.isEmpty
      · exact absurd (List.isEmpty_iff.mp hb) hne
      · rw [organize_some_succ_eq, if_neg hb, orgFinal_length]
        have hperm : List.Perm (sortByPage bms) bms := List.perm_insertionSort _ bms
        have hnd : ((sortByPage bms).map Prod.fst).Nodup :=
          ((hperm.map Prod.fst).nodup_iff).mpr hnodup
        have hscan := orgScan_all_parents_length (d + 1) (sortByPage bms)
          (OrgState.mk [] none)
          (fun x hx => hmax x (hperm.mem_iff.mp hx)) hnd (by simp)
        rw [hscan]
        simp [sortByPage, List.length_insertionSort]
  refine ⟨hlen, ?_⟩
  rw [organize_none, List.length_map, hlen]

/-- Witness for C7 (amended): distinct titles at levels 1 and 2 with
`max_depth` 2. -/
theorem boundary_maxlevel_distinct_count_witness :
    (organize_by_level [("A", 0, 1), ("B", 3, 2)] (some 2)).length = 2 ∧
    (organize_by_level [("A", 0, 1), ("B", 3, 2)] (some 2)).length
      = (organize_by_level [("A", 0, 1), ("B", 3, 2)] none).length := by
  have h := boundary_maxlevel_distinct_count [("A", 0, 1), ("B", 3, 2)] 2
    (by decide) (by decide) (by decide) ⟨("B", 3, 2), by decide, rfl⟩
  exact ⟨h.1, h.2⟩

/-- Claim C5: with a positive `max_depth` set, every title occurring at
level ≤ `max_depth` gets exactly one output section (duplicate occurrences
accumulate in the same keyed bucket, so the output titles are pairwise
distinct), each section's start page is its bucket's first recorded page —
the page of the title's first occurrence at level ≤ `max_depth` in the
page-sorted entries — and the output is ordered by these pages, ascending. -/
theorem organize_merge_duplicate_titles (bms : List (String × Nat × Nat)) (d : Nat)
    (hd : 1 ≤ d) :
    ((organize_by_level bms (some d)).map Prod.fst).Nodup ∧
    (∀ ts ∈ organize_by_level bms (some d),
      firstParentPage d (sortByPage bms) ts.1 = some ts.2) ∧
    (∀ x ∈ sortByPage bms, x.2.2 ≤ d →
      x.1 ∈ (organize_by_level bms (some d)).map Prod.fst) ∧
    ((organize_by_level bms (some d)).map Prod.snd).Pairwise (· ≤ ·) := by
  obtain ⟨d, rfl⟩ : ∃ d', d = d' + 1 := ⟨d - 1, by omega⟩
  by_cases hb : bms.isEmpty
  · have hb' : bms = [] := List.isEmpty_iff.mp hb
    subst hb'
    refine ⟨by simp [organize_by_level], ?_, ?_, by simp [organize_by_level]⟩
    · intro ts hts
      simp [organize_by_level] at hts
    · intro x hx
      simp [sortByPage] at hx
  · have heq : organize_by_level bms (some (d + 1))
        = orgFinal (orgScan (d + 1) (sortByPage bms) ⟨[], none⟩).sections := by
      rw [organize_some_succ_eq, if_neg hb]
    obtain ⟨hN, hH⟩ := orgScan_invariant (d + 1) (sortByPage bms) ⟨[], none⟩
      (by simp) (by simp) (by simp)
    refine ⟨?_, ?_, ?_, ?_⟩
    · rw [heq]
      exact ((orgFinal_fst_perm _).nodup_iff).mpr hN
    · intro ts hts
      rw [heq] at hts
      obtain ⟨rs, hm, hts2⟩ := mem_orgFinal _ ts hts
      obtain ⟨-, hbr⟩ := hH ts.1 rs hm
      rcases hbr with ⟨rs0, hm0, -⟩ | ⟨-, hfp⟩
      · exact absurd hm0 (List.not_mem_nil _)
      · rw [hts2]
        exact hfp
    · intro x hx hxd
      rw [heq]
      exact ((orgFinal_fst_perm _).mem_iff).mpr
        (orgScan_parent_key (d + 1) (sortByPage bms) ⟨[], none⟩ x hx hxd)
    · exact organize_some_succ_snd_pairwise bms d

/-- Witness for C5: the parent title "A" occurs twice at level 1 (pages 0
and 5, with a deeper entry in between) along with a distinct parent "B". -/
theorem organize_merge_duplicate_titles_witness :
    ((organize_by_level [("A", 0, 1), ("a.b", 1, 2), ("A", 5, 1), ("B", 7, 1)]
        (some 1)).map Prod.fst).Nodup ∧
    (∀ ts ∈ organize_by_level [("A", 0, 1), ("a.b", 1, 2), ("A", 5, 1), ("B", 7, 1)] (some 1),
      firstParentPage 1 (sortByPage [("A", 0, 1), ("a.b", 1, 2), ("A", 5, 1), ("B", 7, 1)]) ts.1
        = some ts.2) ∧
    (∀ x ∈ sortByPage [("A", 0, 1), ("a.b", 1, 2), ("A", 5, 1), ("B", 7, 1)], x.2.2 ≤ 1 →
      x.1 ∈ (organize_by_level [("A", 0, 1), ("a.b", 1, 2), ("A", 5, 1), ("B", 7, 1)]
        (some 1)).map Prod.fst) ∧
    ((organize_by_level [("A", 0, 1), ("a.b", 1, 2), ("A", 5, 1), ("B", 7, 1)]
        (some 1)).map Prod.snd).Pairwise (· ≤ ·) :=
  organize_merge_duplicate_titles [("A", 0, 1), ("a.b", 1, 2), ("A", 5, 1), ("B", 7, 1)] 1
    (by decide)

end PdfSplit
